import Mathlib

/-!
Verification of the directory-treemap viewer (spcmngnrn.py): a shallow
embedding of its core algorithms — the path-exclusion test, the cancelable
recursive directory scanner with its background worker, the squarified
treemap layout, the per-block chrome layout, the child-visibility/"others"
aggregation, and the zoom navigation state — together with theorems checking
the specification's claims against these definitions.

Modelling conventions:
  * Python machine-independent ints are Nat (all sizes are non-negative);
    the geometry, done in floats by the source, is embedded over ℚ (exact
    arithmetic); Python division raises ZeroDivisionError on a zero divisor,
    so divisions that can be reached with a zero divisor go through an
    Option-valued division.
  * The filesystem is a finite tree of named entries; os.scandir on a
    modelled directory lists its entries in order.  A nonexistent scan root
    is the `none` case of the root scan.  Symlinks and unreadable
    directories are not modelled (no claim depends on them).
  * The worker's shared `_stopped` flag is monotone (it is only ever set).
    It is modelled by a threshold `stopAt`: the flag reads true on the k-th
    and every later read, where reads are counted in the order the scan
    performs them (`none` = never set).
-/

/-! ## Excluded folders (source lines 46-54) -/

/-- EXCLUDED_DIRS of the source, line 47. -/
def EXCLUDED_DIRS : List String := ["/proc", "/mnt", "/sys", "/dev", "/run"]

/-- Python str.startswith: character-list prefix test. -/
def pyStartswith (s pre : String) : Bool := pre.data.isPrefixOf s.data

/-- is_excluded (lines 49-54).  os.path.abspath is modelled as the identity:
the function is applied to already-absolute paths, and os.sep = "/". -/
def is_excluded (abs_path : String) : Bool :=
  EXCLUDED_DIRS.any fun ex => abs_path == ex || pyStartswith abs_path (ex ++ "/")

/-- os.path.basename: the part of the path after the last "/". -/
def basename (p : String) : String :=
  String.mk ((p.data.reverse.takeWhile fun c => c ≠ '/').reverse)

/-- Display name of a scanned path: `os.path.basename(path) or path`
(line 118). -/
def nameOf (p : String) : String :=
  if basename p = "" then p else basename p

/-! ## Data model and scanner (source lines 62-154, 206-233) -/

/-- Modelled filesystem entry: a regular file with its byte size, or a
directory with its ordered entries (the order os.scandir yields them). -/
inductive FSEntry where
  | file (name : String) (size : Nat)
  | dir (name : String) (entries : List FSEntry)

/-- Entry name of a filesystem entry. -/
def FSEntry.name : FSEntry → String
  | .file n _ => n
  | .dir n _ => n

/-- Node of the scanned tree (class Node, lines 62-71): path, name, is_dir,
size and children.  The parent back-reference is represented structurally
(a node's parent is the node that lists it among its children; the scan
root's parent is None), the stat snapshot and the lazily-cached hue are
rendering data that no scanner claim depends on. -/
inductive NodeT where
  | mk (path : String) (name : String) (is_dir : Bool) (size : Nat)
       (children : List NodeT)

def NodeT.path : NodeT → String
  | .mk p _ _ _ _ => p

def NodeT.name : NodeT → String
  | .mk _ n _ _ _ => n

def NodeT.is_dir : NodeT → Bool
  | .mk _ _ d _ _ => d

def NodeT.size : NodeT → Nat
  | .mk _ _ _ s _ => s

def NodeT.children : NodeT → List NodeT
  | .mk _ _ _ _ cs => cs

/-- Sum of the sizes of a list of nodes. -/
def sumSizes (cs : List NodeT) : Nat := (cs.map NodeT.size).sum

/-- Reads of the worker's `_stopped` flag are counted; the flag is monotone,
so it reads true from its `stopAt`-th read on (`none` = never set). -/
def stopFlag (stopAt : Option Nat) (cnt : Nat) : Bool :=
  match stopAt with
  | none => false
  | some k => k ≤ cnt

/-- Result of one (sub)call of scan_directory: a node plus the updated count
of flag reads, or the ScanCancelledException escaping that call. -/
inductive ScanRes where
  | ok (n : NodeT) (cnt : Nat)
  | cancelled (cnt : Nat)

mutual
/-- scan_directory (lines 113-154) on an existing entry.  `isRoot` is
`parent is None`.  The entry check of lines 116-117 raises (the `.cancelled`
result); for a directory the per-entry checks and recursion happen in
scanL.  The excluded-directory branch is lines 124-131. -/
def scanE (fs : FSEntry) (path : String) (isRoot : Bool)
    (stopAt : Option Nat) (cnt : Nat) : ScanRes :=
  if stopFlag stopAt cnt then .cancelled (cnt + 1)
  else
    match fs with
    | .file _ sz => .ok (.mk path (nameOf path) false sz []) (cnt + 1)
    | .dir _ entries =>
      if !isRoot && is_excluded path then
        .ok (.mk path (nameOf path) true 0 []) (cnt + 1)
      else
        match scanL entries path stopAt (cnt + 1) with
        | (children, total, cnt') => .ok (.mk path (nameOf path) true total children) cnt'

/-- The scandir loop of lines 138-146, wrapped in `try ... except Exception:
pass`: the per-entry stop check (lines 140-141) raises, and a cancellation
raised there or inside a child call is caught by that blanket except, so the
loop ends and the children and total accumulated so far are kept.  Returns
(children, total, updated flag-read count). -/
def scanL (entries : List FSEntry) (dirPath : String)
    (stopAt : Option Nat) (cnt : Nat) : List NodeT × Nat × Nat :=
  match entries with
  | [] => ([], 0, cnt)
  | e :: rest =>
    if stopFlag stopAt cnt then ([], 0, cnt + 1)
    else
      match scanE e (dirPath ++ "/" ++ e.name) false stopAt (cnt + 1) with
      | .cancelled c => ([], 0, c)
      | .ok child c =>
        match scanL rest dirPath stopAt c with
        | (tail, ttotal, c') => (child :: tail, child.size + ttotal, c')
end

/-- Root call of scan_directory (parent=None).  A nonexistent root path is
the `none` case: os.lstat fails (swallowed, lines 119-122), os.path.isdir is
false, so the non-directory branch of lines 150-154 builds a size-0 node. -/
def scan_directory (fs : Option FSEntry) (path : String)
    (stopAt : Option Nat) : ScanRes :=
  match fs with
  | some e => scanE e path true stopAt 0
  | none =>
    if stopFlag stopAt 0 then .cancelled 1
    else .ok (.mk path (nameOf path) false 0 []) 1

/-- Signals ScanWorker.run can end with (lines 220-233): finished with the
scanned tree, cancelled, or error.  (In the model no exception other than
the cancellation can escape scan_directory, so errorSig is unreachable;
it is kept to mirror the worker's interface.) -/
inductive WorkerOut where
  | finished (n : NodeT)
  | cancelledSig
  | errorSig

/-- ScanWorker.run (lines 220-233): emits finished with the result node, or
cancelled when ScanCancelledException escapes scan_directory. -/
def scanWorkerRun (fs : Option FSEntry) (path : String)
    (stopAt : Option Nat) : WorkerOut :=
  match scan_directory fs path stopAt with
  | .ok n _ => .finished n
  | .cancelled _ => .cancelledSig

mutual
/-- Directory-size invariant checker: every directory node's size equals the
sum of its children's sizes, recursively. -/
def sizeOk : NodeT → Bool
  | .mk _ _ d sz cs => (!d || sz == sumSizes cs) && sizeOkL cs

def sizeOkL : List NodeT → Bool
  | [] => true
  | n :: ns => sizeOk n && sizeOkL ns
end

/-! ## Squarified treemap layout (source lines 156-203) -/

/-- Axis-aligned rectangle (x, y, width, height), as the 4-tuples the layout
produces. -/
structure Rect where
  x : ℚ
  y : ℚ
  w : ℚ
  h : ℚ
deriving DecidableEq

/-- Area of a rectangle. -/
def Rect.area (r : Rect) : ℚ := r.w * r.h

/-- Membership of a point in a rectangle, half-open on the far sides, so
that abutting rectangles do not share points. -/
def Rect.Mem (r : Rect) (p : ℚ × ℚ) : Prop :=
  r.x ≤ p.1 ∧ p.1 < r.x + r.w ∧ r.y ≤ p.2 ∧ p.2 < r.y + r.h

/-- rs tiles R: every point of R lies in exactly one rectangle of rs (no
gaps: the union covers R and stays inside R; no overlaps: the rectangles
are pairwise disjoint). -/
def IsPartitionOf (rs : List Rect) (R : Rect) : Prop :=
  (∀ p, R.Mem p ↔ ∃ r ∈ rs, r.Mem p) ∧
  List.Pairwise (fun a b => ∀ p, ¬(a.Mem p ∧ b.Mem p)) rs

/-- Python division: raises ZeroDivisionError on a zero divisor. -/
def pdiv (a b : ℚ) : Option ℚ := if b = 0 then none else some (a / b)

/-- worst_ratio (lines 157-168) over exact arithmetic, with float('inf')
as ⊤ of WithTop ℚ.  The early returns on a zero length or total, and on a
zero row member, all yield ⊤; ⊤ absorbs the running max exactly as inf does
the running float max.  The guarded divisions (total ≠ 0, length ≠ 0,
hence side ≠ 0 in exact arithmetic) cannot raise. -/
def worst_ratio_fn (row : List ℚ) (len : ℚ) : WithTop ℚ :=
  if len = 0 ∨ row.sum = 0 then ⊤
  else
    let side := row.sum / len
    row.foldl (fun worst r =>
      if r = 0 then ⊤
      else max worst (((max (side * side / r) (r / (side * side))) : ℚ) : WithTop ℚ)) 0

/-- The inner while loop of squarify (lines 177-179 / 191-193): grow the row
while the next area does not worsen the row's worst ratio (Python's
`current_worst >= worst_ratio(row + [next], length)`, with inf ≥ inf true
— matched by ⊤ ≤ ⊤ here).  Returns the closed row and the leftover queue. -/
def buildRow (row : List ℚ) (areas : List ℚ) (len : ℚ) : List ℚ × List ℚ :=
  match areas with
  | [] => (row, [])
  | a :: rest =>
    if worst_ratio_fn (row ++ [a]) len ≤ worst_ratio_fn row len then
      buildRow (row ++ [a]) rest len
    else (row, a :: rest)

/-- The row-emission loop of lines 182-186: each area r becomes a rectangle
of width r / row_height laid left to right. -/
def layRowW (row : List ℚ) (rx y row_height : ℚ) : Option (List Rect) :=
  match row with
  | [] => some []
  | r :: rest =>
    (pdiv r row_height).bind fun rw =>
    (layRowW rest (rx + rw) y row_height).bind fun tail =>
    some (⟨rx, y, rw, row_height⟩ :: tail)

/-- The column-emission loop of lines 196-200: each area r becomes a
rectangle of height r / col_width laid top to bottom. -/
def layRowH (row : List ℚ) (x ry col_width : ℚ) : Option (List Rect) :=
  match row with
  | [] => some []
  | r :: rest =>
    (pdiv r col_width).bind fun rh =>
    (layRowH rest x (ry + rh) col_width).bind fun tail =>
    some (⟨x, ry, col_width, rh⟩ :: tail)

/-- The while loop of squarify (lines 173-202), with the loop re-expressed
by recursion on the leftover queue.  Each iteration consumes at least the
one area it starts its row with, so `areas.length` bounds the number of
iterations; the fuel only encodes that bound and squarify always supplies
enough of it. -/
def squarifyGo : Nat → List ℚ → ℚ → ℚ → ℚ → ℚ → Option (List Rect)
  | _, [], _, _, _, _ => some []
  | 0, _ :: _, _, _, _, _ => none
  | fuel + 1, a :: rest0, x, y, width, height =>
    if height ≤ width then
      (pdiv (buildRow [a] rest0 width).1.sum width).bind fun row_height =>
      (layRowW (buildRow [a] rest0 width).1 x y row_height).bind fun rowRects =>
      (squarifyGo fuel (buildRow [a] rest0 width).2 x (y + row_height) width
          (height - row_height)).bind fun tailRects =>
      some (rowRects ++ tailRects)
    else
      (pdiv (buildRow [a] rest0 height).1.sum height).bind fun col_width =>
      (layRowH (buildRow [a] rest0 height).1 x y col_width).bind fun rowRects =>
      (squarifyGo fuel (buildRow [a] rest0 height).2 (x + col_width) y
          (width - col_width) height).bind fun tailRects =>
      some (rowRects ++ tailRects)

/-- squarify (lines 170-203): `some rects` when every division taken has a
nonzero divisor, `none` when the source would raise ZeroDivisionError. -/
def squarify (areas : List ℚ) (x y width height : ℚ) : Option (List Rect) :=
  squarifyGo areas.length areas x y width height

/-! ## Block chrome layout (source lines 292-325) -/

/-- Vertical chrome of one block: top padding, label height, spacing,
bottom padding and sub-viewport height (all inside the 1px borders). -/
structure Chrome where
  top_padding : ℚ
  label_height : ℚ
  spacing : ℚ
  bottom_padding : ℚ
  sub_view_height : ℚ
deriving DecidableEq

/-- Lines 299-325 of draw_node: distribute `inner_height` (the block height
minus the two 1px borders) over padding, label (natural height L), spacing
and sub-viewport. -/
def layoutChrome (inner_height L : ℚ) : Chrome :=
  if 2 + L + 2 + 2 ≤ inner_height then
    ⟨2, L, 2, 2, inner_height - (L + 6)⟩
  else
    if L + 2 ≤ inner_height then
      ⟨(inner_height - (L + 2)) / 2, L, 2, (inner_height - (L + 2)) / 2, 0⟩
    else
      if L ≤ inner_height then
        ⟨(inner_height - L) / 2, L, 0, (inner_height - L) / 2, 0⟩
      else
        ⟨0, inner_height, 0, 0, 0⟩

/-! ## Child visibility, "others" aggregation (source lines 339-377) -/

/-- EPSILON of line 350. -/
def EPSILON : ℚ := 1 / 1000000

/-- Insert a node into a size-descending list, before the first node of
equal or smaller size (so, combined with sortChildren, earlier input nodes
precede later ones of equal size, as Python's stable sorted does). -/
def insertDesc (a : NodeT) : List NodeT → List NodeT
  | [] => [a]
  | b :: bs => if b.size ≤ a.size then a :: b :: bs else b :: insertDesc a bs

/-- Line 340: `sorted(node.children, key=lambda n: n.size, reverse=True)` —
a stable sort by descending size. -/
def sortChildren : List NodeT → List NodeT
  | [] => []
  | a :: as => insertDesc a (sortChildren as)

/-- Lines 340-377 of draw_node: the layout of an interior node's children
inside its child-area rectangle (x, y, w, h).  Returns the (node, rectangle)
pairs that are recursed into, and, when an "others" block is painted, its
rectangle and aggregate size.  `none` models both `total == 0` (nothing is
drawn, line 342) and a ZeroDivisionError inside squarify.  Note the source
computes visRect (lines 364-370) but never uses it: squarify is called on
the full child area (lines 356-357) before the others split. -/
def childLayout (childrenIn : List NodeT) (x y w h : ℚ) :
    Option (List (NodeT × Rect) × Option (Rect × Nat)) :=
  let children := sortChildren childrenIn
  let total : Nat := sumSizes children
  if 0 < total then
    let visible := if 2000 < children.length then children.take 2000 else children
    let othersSize : Nat :=
      if 2000 < children.length then sumSizes (children.drop 2000) else 0
    let visibleTotal : Nat := sumSizes visible
    let visArea : ℚ := w * h
    let scaledAreas : List ℚ :=
      if visibleTotal ≤ 0 then visible.map fun _ => visArea / (visible.length : ℚ)
      else visible.map fun c =>
        ((if 0 < c.size then (c.size : ℚ) else EPSILON) / (visibleTotal : ℚ)) * visArea
    match squarify scaledAreas x y w h with
    | none => none
    | some rects =>
      let placed := visible.zip rects
      if 0 < othersSize ∧ 5 < w ∧ 5 < h then
        let fraction : ℚ := (visibleTotal : ℚ) / (total : ℚ)
        if h ≤ w then
          some (placed, some (⟨x, y + h * fraction, w, h * (1 - fraction)⟩, othersSize))
        else
          some (placed, some (⟨x + w * fraction, y, w * (1 - fraction), h⟩, othersSize))
      else some (placed, none)
  else none

/-! ## Navigation state (source lines 242-257, 413-444) -/

/-- Navigation state of TreemapWidget: the current node is identified by its
child-index path from the root node (the parent back-reference of the
source is the structural parent: dropping the last index), plus the base
hue stack. -/
structure NavState where
  current : List Nat
  baseHueStack : List Nat
deriving DecidableEq

/-- Node of a tree at a child-index path. -/
def nodeAt (n : NodeT) : List Nat → Option NodeT
  | [] => some n
  | i :: p =>
    match n.children[i]? with
    | some c => nodeAt c p
    | none => none

/-- The zoom of mouseDoubleClickEvent (lines 413-429) once the hit target is
the node at path p: if it is a directory with children, push a base hue and
make it current.  The pushed hue value (target.hue, or derived from the
current base and depth, line 424) is rendering state passed in as `hv`;
its value does not affect the navigation structure. -/
def zoomInto (root : NodeT) (s : NavState) (p : List Nat) (hv : Nat) : NavState :=
  match nodeAt root p with
  | some t => if t.is_dir && !t.children.isEmpty then ⟨p, s.baseHueStack ++ [hv]⟩ else s
  | none => s

/-- go_up (lines 431-437): when the current node has a parent, move to it
and pop the hue stack unless that would empty it. -/
def go_up (s : NavState) : NavState :=
  if s.current = [] then s
  else
    ⟨s.current.dropLast,
     if 1 < s.baseHueStack.length then s.baseHueStack.dropLast else s.baseHueStack⟩

/-! ## Shared lemmas -/

theorem isPrefixOf_exists : ∀ (l₁ l₂ : List Char), l₁.isPrefixOf l₂ = true ↔ ∃ t, l₂ = l₁ ++ t := by
  intro l₁
  induction l₁ with
  | nil => intro l₂; simp [List.isPrefixOf]
  | cons a as ih =>
    intro l₂
    cases l₂ with
    | nil => simp [List.isPrefixOf]
    | cons b bs =>
      simp only [List.isPrefixOf, Bool.and_eq_true, beq_iff_eq, ih, List.cons_append,
        List.cons.injEq]
      constructor
      · rintro ⟨rfl, t, rfl⟩; exact ⟨t, rfl, rfl⟩
      · rintro ⟨t, rfl, rfl⟩; exact ⟨rfl, t, rfl⟩

theorem pyStartswith_iff (s pre : String) :
    pyStartswith s pre = true ↔ ∃ t : String, s = pre ++ t := by
  unfold pyStartswith
  rw [isPrefixOf_exists]
  constructor
  · rintro ⟨t, ht⟩
    refine ⟨String.mk t, ?_⟩
    apply String.ext
    rw [String.data_append]
    exact ht
  · rintro ⟨t, rfl⟩
    exact ⟨t.data, String.data_append pre t⟩

/-! ## Claim theorems -/

/-- C10: a path is treated as excluded iff its absolute form equals one of
the configured excluded directories or extends one of them across a "/"
boundary; a path that merely shares a string prefix with an excluded
directory (such as "/devices" while "/dev" is excluded) is not excluded. -/
theorem is_excluded_characterization :
    (∀ p : String, is_excluded p = true ↔
       ∃ ex ∈ EXCLUDED_DIRS, p = ex ∨ ∃ rest : String, p = ex ++ "/" ++ rest) ∧
    is_excluded "/devices" = false ∧
    is_excluded "/dev" = true ∧
    is_excluded "/dev/sda" = true := by
  refine ⟨?_, by decide, by decide, by decide⟩
  intro p
  unfold is_excluded
  rw [List.any_eq_true]
  constructor
  · rintro ⟨ex, hex, hor⟩
    rw [Bool.or_eq_true, beq_iff_eq] at hor
    rcases hor with h | h
    · exact ⟨ex, hex, Or.inl h⟩
    · obtain ⟨t, ht⟩ := (pyStartswith_iff p (ex ++ "/")).1 h
      exact ⟨ex, hex, Or.inr ⟨t, ht⟩⟩
  · rintro ⟨ex, hex, h | ⟨rest, rfl⟩⟩
    · exact ⟨ex, hex, by simp [h]⟩
    · refine ⟨ex, hex, ?_⟩
      rw [Bool.or_eq_true]
      exact Or.inr ((pyStartswith_iff _ _).2 ⟨rest, rfl⟩)

/-- C7: the exclusion policy applies to strict descendants of the scan root
(parent is not None) and never to the root: a non-root excluded directory
becomes a Directory leaf of size 0 with no children and is never listed
(exactly one flag read, no recursion), while a scan whose root path is
itself excluded descends into its entries normally; concretely, a root scan
of "/proc" descends while "/proc" met below a root is recorded as a
zero-size childless Directory node. -/
theorem exclusion_spares_root :
    (∀ (nm : String) (entries : List FSEntry) (path : String)
       (stopAt : Option Nat) (cnt : Nat),
       stopFlag stopAt cnt = false → is_excluded path = true →
       scanE (.dir nm entries) path false stopAt cnt =
         .ok (.mk path (nameOf path) true 0 []) (cnt + 1)) ∧
    (∀ (nm : String) (entries : List FSEntry) (path : String)
       (stopAt : Option Nat) (cnt : Nat),
       stopFlag stopAt cnt = false →
       scanE (.dir nm entries) path true stopAt cnt =
         (match scanL entries path stopAt (cnt + 1) with
          | (children, total, cnt') =>
            .ok (.mk path (nameOf path) true total children) cnt')) ∧
    scan_directory (some (.dir "proc" [.file "cpuinfo" 7])) "/proc" none =
      .ok (.mk "/proc" "proc" true 7 [.mk "/proc/cpuinfo" "cpuinfo" false 7 []]) 3 ∧
    scanE (.dir "proc" [.file "cpuinfo" 7]) "/proc" false none 0 =
      .ok (.mk "/proc" "proc" true 0 []) 1 := by
  refine ⟨?_, ?_, rfl, rfl⟩
  · intro nm entries path stopAt cnt h1 h2
    simp [scanE, h1, h2]
  · intro nm entries path stopAt cnt h1
    simp [scanE, h1]

theorem exclusion_spares_root_witness :
    scanE (.dir "x" []) "/dev" false none 0 =
      .ok (.mk "/dev" (nameOf "/dev") true 0 []) 1 :=
  exclusion_spares_root.1 "x" [] "/dev" none 0 rfl (by decide)

/-- C1 (code bug evaluation): cancellation requested after the scan's first
flag read (stopAt = 1, i.e. strictly mid-scan) does not cancel: the
exception raised in the entry loop is swallowed by the blanket except
around the loop, the partial node is returned and the worker emits finished
with it; the cancelled signal only appears when the flag is already set at
the very first read (stopAt = 0).  The stopAt = none run shows what the
completed scan of the same tree returns, so stopAt = 1 interrupts it. -/
theorem scanWorkerRun_swallows_cancellation :
    scanWorkerRun (some (.dir "d" [.file "a" 5])) "/d" (some 1) =
      .finished (.mk "/d" "d" true 0 []) ∧
    scanWorkerRun (some (.dir "d" [.file "a" 5])) "/d" none =
      .finished (.mk "/d" "d" true 5 [.mk "/d/a" "a" false 5 []]) ∧
    scanWorkerRun (some (.dir "d" [.file "a" 5])) "/d" (some 0) = .cancelledSig :=
  ⟨rfl, rfl, rfl⟩

/-- C2 (counterexample): a scan whose root path does not exist returns a
File-kind Node of size 0 and the worker emits the finished signal; no
NotFound error outcome is surfaced and no error signal is emitted. -/
theorem scan_missing_root_returns_node :
    scan_directory none "/missing" none =
      .ok (.mk "/missing" "missing" false 0 []) 1 ∧
    scanWorkerRun none "/missing" none =
      .finished (.mk "/missing" "missing" false 0 []) :=
  ⟨rfl, rfl⟩

/-- C2 (amended): for every nonexistent scan root path (whenever the stop
flag is not already set at the first read), scan_directory returns a
File-kind Node of size 0 named after the path, and the worker emits
finished with that node rather than any error outcome. -/
theorem scan_missing_root_finishes (path : String) (stopAt : Option Nat)
    (h : stopFlag stopAt 0 = false) :
    scan_directory none path stopAt = .ok (.mk path (nameOf path) false 0 []) 1 ∧
    scanWorkerRun none path stopAt = .finished (.mk path (nameOf path) false 0 []) := by
  constructor <;> simp [scanWorkerRun, scan_directory, h]

theorem scan_missing_root_finishes_witness :
    scan_directory none "/nope" none = .ok (.mk "/nope" (nameOf "/nope") false 0 []) 1 ∧
    scanWorkerRun none "/nope" none = .finished (.mk "/nope" (nameOf "/nope") false 0 []) :=
  scan_missing_root_finishes "/nope" none rfl

/-- C6 (code bug evaluation): with label height L = 10, inner height 16 is
the full-chrome boundary (paddings 2, spacing 2, label 10, child area 0);
at inner height 15 the code keeps spacing at its natural 2 and shrinks the
two paddings to 3/2 each — not the documented order, which would keep the
paddings at 2 and shrink the spacing to 1 (the rejected ⟨2, 10, 1, 2, 0⟩);
at inner height 11 the spacing has dropped to 0 while the paddings are
back up to 1/2 each. -/
theorem layoutChrome_shrink_order_eval :
    layoutChrome 15 10 = ⟨3/2, 10, 2, 3/2, 0⟩ ∧
    layoutChrome 15 10 ≠ ⟨2, 10, 1, 2, 0⟩ ∧
    layoutChrome 16 10 = ⟨2, 10, 2, 2, 0⟩ ∧
    layoutChrome 11 10 = ⟨1/2, 10, 0, 1/2, 0⟩ := by
  refine ⟨by norm_num [layoutChrome], by norm_num [layoutChrome],
    by norm_num [layoutChrome], by norm_num [layoutChrome]⟩

/-- C9: zooming from the current node into a direct child that is a
directory with at least one child and then calling go_up restores the
navigation state exactly (current node and hue stack, the pushed hue being
popped again), and go_up never empties the hue stack. -/
theorem zoom_go_up_round_trip :
    (∀ (root : NodeT) (s : NavState) (i : Nat) (t : NodeT) (hv : Nat),
       s.baseHueStack ≠ [] →
       nodeAt root (s.current ++ [i]) = some t →
       t.is_dir = true → t.children ≠ [] →
       go_up (zoomInto root s (s.current ++ [i]) hv) = s) ∧
    (∀ s : NavState, s.baseHueStack ≠ [] → (go_up s).baseHueStack ≠ []) := by
  constructor
  · intro root s i t hv hne hnode hdir hch
    have hempty : t.children.isEmpty = false := by
      cases hc : t.children with
      | nil => exact absurd hc hch
      | cons a l => rfl
    have h1 : s.current ++ [i] ≠ [] := by simp
    have h2 : 1 < (s.baseHueStack ++ [hv]).length := by
      rw [List.length_append, List.length_singleton]
      have := List.length_pos.mpr hne
      omega
    simp only [zoomInto, hnode, hdir, hempty, Bool.not_false, Bool.and_self, if_true]
    simp only [go_up, h1, if_neg h1, if_pos h2, List.dropLast_concat]
    simp
  · intro s hne
    unfold go_up
    by_cases hc : s.current = []
    · simpa [hc] using hne
    · rw [if_neg hc]
      by_cases hl : 1 < s.baseHueStack.length
      · simp only [if_pos hl]
        refine List.length_pos.mp ?_
        rw [List.length_dropLast]
        omega
      · simpa [if_neg hl] using hne

theorem zoom_go_up_round_trip_witness :
    go_up (zoomInto
      (.mk "/r" "r" true 1 [.mk "/r/d" "d" true 1 [.mk "/r/d/f" "f" false 1 []]])
      ⟨[], [7]⟩ ([] ++ [0]) 3) = ⟨[], [7]⟩ :=
  zoom_go_up_round_trip.1
    (.mk "/r" "r" true 1 [.mk "/r/d" "d" true 1 [.mk "/r/d/f" "f" false 1 []]])
    ⟨[], [7]⟩ 0 (.mk "/r/d" "d" true 1 [.mk "/r/d/f" "f" false 1 []]) 3
    (by simp) rfl rfl (by simp [NodeT.children])

mutual
theorem scanE_sizeOk : ∀ (fs : FSEntry) (path : String) (isRoot : Bool)
    (stopAt : Option Nat) (cnt : Nat) (n : NodeT) (c : Nat),
    scanE fs path isRoot stopAt cnt = .ok n c → sizeOk n = true
  | .file nm sz, path, isRoot, stopAt, cnt, n, c => by
    intro h
    simp only [scanE] at h
    by_cases hs : stopFlag stopAt cnt = true
    · rw [if_pos hs] at h; cases h
    · rw [if_neg hs] at h
      cases h
      rfl
  | .dir nm entries, path, isRoot, stopAt, cnt, n, c => by
    intro h
    simp only [scanE] at h
    by_cases hs : stopFlag stopAt cnt = true
    · rw [if_pos hs] at h; cases h
    · rw [if_neg hs] at h
      by_cases hex : (!isRoot && is_excluded path) = true
      · rw [if_pos hex] at h; cases h; rfl
      · rw [if_neg hex] at h
        have hL := scanL_sizeOk entries path stopAt (cnt + 1)
        rcases hsc : scanL entries path stopAt (cnt + 1) with ⟨children, total, c'⟩
        rw [hsc] at h hL
        cases h
        simp only [sizeOk, Bool.and_eq_true]
        refine ⟨?_, hL.1⟩
        simp only [Bool.not_true, Bool.false_or, beq_iff_eq]
        exact hL.2

theorem scanL_sizeOk : ∀ (entries : List FSEntry) (dirPath : String)
    (stopAt : Option Nat) (cnt : Nat),
    sizeOkL (scanL entries dirPath stopAt cnt).1 = true ∧
    (scanL entries dirPath stopAt cnt).2.1 = sumSizes (scanL entries dirPath stopAt cnt).1
  | [], dirPath, stopAt, cnt => by simp [scanL, sizeOkL, sumSizes]
  | e :: rest, dirPath, stopAt, cnt => by
    simp only [scanL]
    by_cases hs : stopFlag stopAt cnt = true
    · rw [if_pos hs]; simp [sizeOkL, sumSizes]
    · rw [if_neg hs]
      cases hE : scanE e (dirPath ++ "/" ++ e.name) false stopAt (cnt + 1) with
      | ok child c =>
        have hchild := scanE_sizeOk e (dirPath ++ "/" ++ e.name) false stopAt (cnt + 1) child c hE
        have hrest := scanL_sizeOk rest dirPath stopAt c
        refine ⟨?_, ?_⟩
        · show sizeOkL (child :: (scanL rest dirPath stopAt c).1) = true
          simp only [sizeOkL, Bool.and_eq_true]
          exact ⟨hchild, hrest.1⟩
        · show child.size + (scanL rest dirPath stopAt c).2.1
            = sumSizes (child :: (scanL rest dirPath stopAt c).1)
          rw [hrest.2]
          rfl
      | cancelled c => exact ⟨rfl, rfl⟩
end

/-- C5: every Directory node in a tree returned by a scan satisfies
size = sum of its children's sizes (an empty child list gives size 0),
checked recursively by sizeOk over the whole returned tree; and Scenario A:
scanning a directory holding one 100-byte file and a subdirectory with two
50-byte files yields a root of size 200 whose two children have sizes 100
and 100. -/
theorem scan_directory_size_sums :
    (∀ (fs : Option FSEntry) (path : String) (stopAt : Option Nat) (n : NodeT) (c : Nat),
       scan_directory fs path stopAt = .ok n c → sizeOk n = true) ∧
    (∃ n : NodeT,
       scan_directory
           (some (.dir "r" [.file "a" 100, .dir "sub" [.file "b" 50, .file "c" 50]]))
           "/r" none = .ok n 9 ∧
       n.size = 200 ∧ n.children.map NodeT.size = [100, 100] ∧ sizeOk n = true) := by
  constructor
  · intro fs path stopAt n c h
    cases fs with
    | some e =>
      unfold scan_directory at h
      exact scanE_sizeOk e path true stopAt 0 n c h
    | none =>
      unfold scan_directory at h
      by_cases hs : stopFlag stopAt 0 = true
      · rw [if_pos hs] at h; cases h
      · rw [if_neg hs] at h; cases h; rfl
  · exact ⟨.mk "/r" "r" true 200
      [.mk "/r/a" "a" false 100 [],
       .mk "/r/sub" "sub" true 100
         [.mk "/r/sub/b" "b" false 50 [], .mk "/r/sub/c" "c" false 50 []]],
      rfl, rfl, rfl, rfl⟩

theorem scan_directory_size_sums_witness :
    sizeOk (.mk "/r" "r" true 200
      [.mk "/r/a" "a" false 100 [],
       .mk "/r/sub" "sub" true 100
         [.mk "/r/sub/b" "b" false 50 [], .mk "/r/sub/c" "c" false 50 []]]) = true :=
  scan_directory_size_sums.1
    (some (.dir "r" [.file "a" 100, .dir "sub" [.file "b" 50, .file "c" 50]]))
    "/r" none _ 9 rfl

theorem foldl_worst_top (side : ℚ) : ∀ (l : List ℚ) (acc : WithTop ℚ), 0 ∈ l ∨ acc = ⊤ →
    l.foldl (fun worst r =>
      if r = 0 then ⊤
      else max worst (((max (side * side / r) (r / (side * side))) : ℚ) : WithTop ℚ)) acc = ⊤ := by
  intro l
  induction l with
  | nil =>
    intro acc h
    rcases h with h | h
    · cases h
    · simpa using h
  | cons a rest ih =>
    intro acc h
    simp only [List.foldl_cons]
    rcases h with h | h
    · rcases List.mem_cons.mp h with h0 | hmem
      · refine ih _ (Or.inr ?_)
        rw [if_pos h0.symm]
      · exact ih _ (Or.inl hmem)
    · refine ih _ (Or.inr ?_)
      subst h
      by_cases ha : a = 0
      · rw [if_pos ha]
      · rw [if_neg ha, max_eq_left le_top]

theorem worst_ratio_eq_top (row : List ℚ) (len : ℚ) (h : 0 ∈ row ∨ len = 0) :
    worst_ratio_fn row len = ⊤ := by
  unfold worst_ratio_fn
  by_cases h0 : len = 0 ∨ row.sum = 0
  · rw [if_pos h0]
  · rw [if_neg h0]
    rcases h with h | h
    · exact foldl_worst_top (row.sum / len) row 0 (Or.inl h)
    · exact absurd (Or.inl h) h0

theorem buildRow_absorb : ∀ (areas row : List ℚ) (len : ℚ), 0 ∈ row ∨ len = 0 →
    buildRow row areas len = (row ++ areas, []) := by
  intro areas
  induction areas with
  | nil => intro row len h; simp [buildRow]
  | cons a rest ih =>
    intro row len h
    have hcond : worst_ratio_fn (row ++ [a]) len ≤ worst_ratio_fn row len := by
      rw [worst_ratio_eq_top row len h]
      exact le_top
    simp only [buildRow, if_pos hcond]
    have h' : 0 ∈ row ++ [a] ∨ len = 0 := by
      rcases h with h | h
      · exact Or.inl (List.mem_append_left _ h)
      · exact Or.inr h
    rw [ih (row ++ [a]) len h']
    simp

theorem buildRow_stops_at_zero (row rest : List ℚ) (len : ℚ)
    (h : worst_ratio_fn row len ≠ ⊤) :
    buildRow row (0 :: rest) len = (row, 0 :: rest) := by
  have htop : worst_ratio_fn (row ++ [0]) len = ⊤ :=
    worst_ratio_eq_top _ _ (Or.inl (List.mem_append_right _ (List.mem_singleton.mpr rfl)))
  have hcond : ¬ worst_ratio_fn (row ++ [0]) len ≤ worst_ratio_fn row len := by
    rw [htop]
    exact fun hc => h (top_le_iff.mp hc)
  simp only [buildRow, if_neg hcond]

/-- C8 (amended): a zero input area or a zero-length target side makes the
computed worst ratio infinite (⊤); a zero area is never merged into a row
whose worst ratio is finite, but — because inf ≥ inf holds — a row that
starts with a zero area absorbs all remaining areas instead of closing, a
zero-length target side likewise absorbs every area instead of terminating
row growth, and squarify is not well-defined for all zero-containing
inputs: a closed row with total 0 (a trailing zero area) reaches a
division by zero, modelled as the none result. -/
theorem zero_area_degenerate_behavior :
    (∀ (row : List ℚ) (len : ℚ), 0 ∈ row ∨ len = 0 → worst_ratio_fn row len = ⊤) ∧
    (∀ (row rest : List ℚ) (len : ℚ), worst_ratio_fn row len ≠ ⊤ →
       buildRow row (0 :: rest) len = (row, 0 :: rest)) ∧
    (∀ (rest : List ℚ) (len : ℚ), buildRow [0] rest len = (0 :: rest, [])) ∧
    (∀ (row rest : List ℚ), buildRow row rest 0 = (row ++ rest, [])) ∧
    squarify [100, 0] 0 0 20 10 = none := by
  refine ⟨worst_ratio_eq_top, buildRow_stops_at_zero, ?_, ?_, ?_⟩
  · intro rest len
    simpa using buildRow_absorb rest [0] len (Or.inl (List.mem_singleton.mpr rfl))
  · intro row rest
    exact buildRow_absorb rest row 0 (Or.inr rfl)
  · norm_num [squarify, squarifyGo, buildRow, worst_ratio_fn, layRowW, pdiv]

/-- C8 (counterexample): squarify does divide by zero on inputs where some
areas are exactly zero: on [100, 0] the trailing zero forms its own row of
total 0, so row_height is 0 and r / row_height raises (the none result);
a single zero area alone does the same. -/
theorem squarify_zero_area_div_by_zero :
    squarify [100, 0] 0 0 20 10 = none ∧ squarify [0] 0 0 10 10 = none := by
  constructor <;> norm_num [squarify, squarifyGo, buildRow, worst_ratio_fn, layRowW, pdiv]

theorem zero_area_degenerate_behavior_witness :
    worst_ratio_fn [(100 : ℚ)] 20 ≠ ⊤ ∧
    buildRow [(100 : ℚ)] [0] 20 = ([100], [0]) := by
  have h : worst_ratio_fn [(100 : ℚ)] 20 = ((4 : ℚ) : WithTop ℚ) := by
    norm_num [worst_ratio_fn, WithTop.coe_le_coe, max_def]
  exact ⟨by rw [h]; exact WithTop.coe_ne_top,
    zero_area_degenerate_behavior.2.1 [100] [] 20 (by rw [h]; exact WithTop.coe_ne_top)⟩

theorem Rect.not_Mem_of_degenerate {r : Rect} (h : r.w ≤ 0 ∨ r.h ≤ 0) (p : ℚ × ℚ) :
    ¬ r.Mem p := by
  rintro ⟨h1, h2, h3, h4⟩
  rcases h with h | h
  · have : p.1 < r.x := lt_of_lt_of_le h2 (by linarith)
    linarith
  · have : p.2 < r.y := lt_of_lt_of_le h4 (by linarith)
    linarith

theorem partition_nil {R : Rect} (h : R.w = 0 ∨ R.h = 0) : IsPartitionOf [] R := by
  constructor
  · intro p
    simp only [List.not_mem_nil, false_and, exists_false, iff_false]
    exact Rect.not_Mem_of_degenerate
      (by rcases h with h | h
          · exact Or.inl h.le
          · exact Or.inr h.le) p
  · exact List.Pairwise.nil

theorem partition_single (R : Rect) : IsPartitionOf [R] R := by
  constructor
  · intro p
    simp
  · simp

theorem partition_hsplit {A B : List Rect} {x y w h t : ℚ}
    (hA : IsPartitionOf A ⟨x, y, t, h⟩) (hB : IsPartitionOf B ⟨x + t, y, w - t, h⟩)
    (ht0 : 0 ≤ t) (htw : t ≤ w) : IsPartitionOf (A ++ B) ⟨x, y, w, h⟩ := by
  have hsub : ∀ p : ℚ × ℚ, (⟨x, y, w, h⟩ : Rect).Mem p ↔
      ((⟨x, y, t, h⟩ : Rect).Mem p ∨ (⟨x + t, y, w - t, h⟩ : Rect).Mem p) := by
    intro p
    unfold Rect.Mem
    dsimp only
    constructor
    · rintro ⟨h1, h2, h3, h4⟩
      by_cases hc : p.1 < x + t
      · exact Or.inl ⟨h1, hc, h3, h4⟩
      · exact Or.inr ⟨le_of_not_lt hc, by linarith, h3, h4⟩
    · rintro (⟨h1, h2, h3, h4⟩ | ⟨h1, h2, h3, h4⟩)
      · exact ⟨h1, by linarith, h3, h4⟩
      · exact ⟨by linarith, by linarith, h3, h4⟩
  constructor
  · intro p
    rw [hsub p, hA.1 p, hB.1 p]
    constructor
    · rintro (⟨r, hr, hm⟩ | ⟨r, hr, hm⟩)
      · exact ⟨r, List.mem_append_left _ hr, hm⟩
      · exact ⟨r, List.mem_append_right _ hr, hm⟩
    · rintro ⟨r, hr, hm⟩
      rcases List.mem_append.mp hr with h' | h'
      · exact Or.inl ⟨r, h', hm⟩
      · exact Or.inr ⟨r, h', hm⟩
  · rw [List.pairwise_append]
    refine ⟨hA.2, hB.2, ?_⟩
    intro a ha b hb p hp
    have h1 : (⟨x, y, t, h⟩ : Rect).Mem p := (hA.1 p).mpr ⟨a, ha, hp.1⟩
    have h2 : (⟨x + t, y, w - t, h⟩ : Rect).Mem p := (hB.1 p).mpr ⟨b, hb, hp.2⟩
    obtain ⟨_, hlt, _, _⟩ := h1
    obtain ⟨hge, _, _, _⟩ := h2
    dsimp only at hlt hge
    linarith

theorem partition_vsplit {A B : List Rect} {x y w h t : ℚ}
    (hA : IsPartitionOf A ⟨x, y, w, t⟩) (hB : IsPartitionOf B ⟨x, y + t, w, h - t⟩)
    (ht0 : 0 ≤ t) (hth : t ≤ h) : IsPartitionOf (A ++ B) ⟨x, y, w, h⟩ := by
  have hsub : ∀ p : ℚ × ℚ, (⟨x, y, w, h⟩ : Rect).Mem p ↔
      ((⟨x, y, w, t⟩ : Rect).Mem p ∨ (⟨x, y + t, w, h - t⟩ : Rect).Mem p) := by
    intro p
    unfold Rect.Mem
    dsimp only
    constructor
    · rintro ⟨h1, h2, h3, h4⟩
      by_cases hc : p.2 < y + t
      · exact Or.inl ⟨h1, h2, h3, hc⟩
      · exact Or.inr ⟨h1, h2, le_of_not_lt hc, by linarith⟩
    · rintro (⟨h1, h2, h3, h4⟩ | ⟨h1, h2, h3, h4⟩)
      · exact ⟨h1, h2, h3, by linarith⟩
      · exact ⟨h1, h2, by linarith, by linarith⟩
  constructor
  · intro p
    rw [hsub p, hA.1 p, hB.1 p]
    constructor
    · rintro (⟨r, hr, hm⟩ | ⟨r, hr, hm⟩)
      · exact ⟨r, List.mem_append_left _ hr, hm⟩
      · exact ⟨r, List.mem_append_right _ hr, hm⟩
    · rintro ⟨r, hr, hm⟩
      rcases List.mem_append.mp hr with h' | h'
      · exact Or.inl ⟨r, h', hm⟩
      · exact Or.inr ⟨r, h', hm⟩
  · rw [List.pairwise_append]
    refine ⟨hA.2, hB.2, ?_⟩
    intro a ha b hb p hp
    have h1 : (⟨x, y, w, t⟩ : Rect).Mem p := (hA.1 p).mpr ⟨a, ha, hp.1⟩
    have h2 : (⟨x, y + t, w, h - t⟩ : Rect).Mem p := (hB.1 p).mpr ⟨b, hb, hp.2⟩
    obtain ⟨_, _, _, hlt⟩ := h1
    obtain ⟨_, _, hge, _⟩ := h2
    dsimp only at hlt hge
    linarith

theorem buildRow_append : ∀ (areas row : List ℚ) (len : ℚ),
    (buildRow row areas len).1 ++ (buildRow row areas len).2 = row ++ areas := by
  intro areas
  induction areas with
  | nil => intro row len; simp [buildRow]
  | cons a rest ih =>
    intro row len
    simp only [buildRow]
    split
    · rw [ih (row ++ [a]) len]
      simp
    · rfl

theorem buildRow_fst_expand : ∀ (areas row : List ℚ) (len : ℚ),
    ∃ t, (buildRow row areas len).1 = row ++ t := by
  intro areas
  induction areas with
  | nil => intro row len; exact ⟨[], by simp [buildRow]⟩
  | cons a rest ih =>
    intro row len
    simp only [buildRow]
    split
    · obtain ⟨t, ht⟩ := ih (row ++ [a]) len
      exact ⟨[a] ++ t, by rw [ht]; simp⟩
    · exact ⟨[], by simp⟩

theorem buildRow_snd_length (areas row : List ℚ) (len : ℚ) :
    (buildRow row areas len).2.length ≤ areas.length := by
  have h := congrArg List.length (buildRow_append areas row len)
  rw [List.length_append, List.length_append] at h
  obtain ⟨t, ht⟩ := buildRow_fst_expand areas row len
  rw [ht, List.length_append] at h
  omega

theorem div_self_div (a b : ℚ) (ha : a ≠ 0) (_hb : b ≠ 0) : a / (a / b) = b := by
  field_simp

theorem layRowW_spec : ∀ (row : List ℚ) (rx y rh : ℚ), 0 < rh → (∀ r ∈ row, 0 < r) →
    ∃ rects, layRowW row rx y rh = some rects ∧
      rects.map Rect.area = row ∧
      IsPartitionOf rects ⟨rx, y, row.sum / rh, rh⟩ := by
  intro row
  induction row with
  | nil =>
    intro rx y rh hrh _
    refine ⟨[], rfl, rfl, ?_⟩
    have hz : (List.sum ([] : List ℚ)) / rh = 0 := by simp
    exact partition_nil (Or.inl hz)
  | cons r rest ih =>
    intro rx y rh hrh hpos
    have hrh0 : rh ≠ 0 := ne_of_gt hrh
    have hr : 0 < r := hpos r (List.mem_cons_self r rest)
    obtain ⟨tail, htail, hmap, hpart⟩ :=
      ih (rx + r / rh) y rh hrh (fun b hb => hpos b (List.mem_cons_of_mem _ hb))
    refine ⟨⟨rx, y, r / rh, rh⟩ :: tail, ?_, ?_, ?_⟩
    · simp only [layRowW, pdiv, if_neg hrh0, Option.some_bind, htail]
    · simp only [List.map_cons, hmap, Rect.area]
      rw [div_mul_cancel₀ r hrh0]
    · have hw : (r :: rest).sum / rh - r / rh = rest.sum / rh := by
        rw [List.sum_cons, add_div]
        ring
      have hB : IsPartitionOf tail ⟨rx + r / rh, y, (r :: rest).sum / rh - r / rh, rh⟩ := by
        rw [hw]
        exact hpart
      have ht0 : 0 ≤ r / rh := (div_pos hr hrh).le
      have htw : r / rh ≤ (r :: rest).sum / rh := by
        rw [List.sum_cons, add_div]
        have h0 : 0 ≤ rest.sum / rh :=
          div_nonneg (List.sum_nonneg fun b hb => (hpos b (List.mem_cons_of_mem _ hb)).le) hrh.le
        linarith
      exact partition_hsplit (partition_single _) hB ht0 htw

theorem layRowH_spec : ∀ (row : List ℚ) (x ry cw : ℚ), 0 < cw → (∀ r ∈ row, 0 < r) →
    ∃ rects, layRowH row x ry cw = some rects ∧
      rects.map Rect.area = row ∧
      IsPartitionOf rects ⟨x, ry, cw, row.sum / cw⟩ := by
  intro row
  induction row with
  | nil =>
    intro x ry cw hcw _
    refine ⟨[], rfl, rfl, ?_⟩
    have hz : (List.sum ([] : List ℚ)) / cw = 0 := by simp
    exact partition_nil (Or.inr hz)
  | cons r rest ih =>
    intro x ry cw hcw hpos
    have hcw0 : cw ≠ 0 := ne_of_gt hcw
    have hr : 0 < r := hpos r (List.mem_cons_self r rest)
    obtain ⟨tail, htail, hmap, hpart⟩ :=
      ih x (ry + r / cw) cw hcw (fun b hb => hpos b (List.mem_cons_of_mem _ hb))
    refine ⟨⟨x, ry, cw, r / cw⟩ :: tail, ?_, ?_, ?_⟩
    · simp only [layRowH, pdiv, if_neg hcw0, Option.some_bind, htail]
    · simp only [List.map_cons, hmap, Rect.area]
      rw [mul_div_cancel₀ r hcw0]
    · have hw : (r :: rest).sum / cw - r / cw = rest.sum / cw := by
        rw [List.sum_cons, add_div]
        ring
      have hB : IsPartitionOf tail ⟨x, ry + r / cw, cw, (r :: rest).sum / cw - r / cw⟩ := by
        rw [hw]
        exact hpart
      have ht0 : 0 ≤ r / cw := (div_pos hr hcw).le
      have hth : r / cw ≤ (r :: rest).sum / cw := by
        rw [List.sum_cons, add_div]
        have h0 : 0 ≤ rest.sum / cw :=
          div_nonneg (List.sum_nonneg fun b hb => (hpos b (List.mem_cons_of_mem _ hb)).le) hcw.le
        linarith
      exact partition_vsplit (partition_single _) hB ht0 hth

theorem squarifyGo_nil (fuel : Nat) (x y w h : ℚ) : squarifyGo fuel [] x y w h = some [] := by
  cases fuel <;> rfl

theorem squarifyGo_spec : ∀ (fuel : Nat) (areas : List ℚ) (x y w h : ℚ),
    areas.length ≤ fuel → (∀ a ∈ areas, 0 < a) → 0 < w → 0 < h →
    areas.sum = w * h →
    ∃ rects, squarifyGo fuel areas x y w h = some rects ∧
      rects.map Rect.area = areas ∧ IsPartitionOf rects ⟨x, y, w, h⟩ := by
  intro fuel
  induction fuel with
  | zero =>
    intro areas x y w h hlen hpos hw hh hsum
    cases areas with
    | nil =>
      exfalso
      have hlt : (0:ℚ) < w * h := mul_pos hw hh
      rw [← hsum] at hlt
      simp at hlt
    | cons a rest => simp at hlen
  | succ fuel ih =>
    intro areas x y w h hlen hpos hw hh hsum
    cases areas with
    | nil =>
      exfalso
      have hlt : (0:ℚ) < w * h := mul_pos hw hh
      rw [← hsum] at hlt
      simp at hlt
    | cons a rest0 =>
      rw [List.length_cons, Nat.succ_le_succ_iff] at hlen
      by_cases hbr : h ≤ w
      · have happ := buildRow_append rest0 [a] w
        obtain ⟨trow, htrow⟩ := buildRow_fst_expand rest0 [a] w
        have hmemrow : ∀ b ∈ (buildRow [a] rest0 w).1, 0 < b := by
          intro b hb
          have hm : b ∈ (buildRow [a] rest0 w).1 ++ (buildRow [a] rest0 w).2 :=
            List.mem_append_left _ hb
          rw [happ] at hm
          exact hpos b hm
        have hmemrest : ∀ b ∈ (buildRow [a] rest0 w).2, 0 < b := by
          intro b hb
          have hm : b ∈ (buildRow [a] rest0 w).1 ++ (buildRow [a] rest0 w).2 :=
            List.mem_append_right _ hb
          rw [happ] at hm
          exact hpos b hm
        have hrow_ne : (buildRow [a] rest0 w).1 ≠ [] := by
          rw [htrow]
          exact List.cons_ne_nil a trow
        have htot : 0 < (buildRow [a] rest0 w).1.sum := List.sum_pos _ hmemrow hrow_ne
        have hw0 : w ≠ 0 := ne_of_gt hw
        have hsumsplit :
            (buildRow [a] rest0 w).1.sum + (buildRow [a] rest0 w).2.sum = w * h := by
          have hc := congrArg List.sum happ
          rw [List.sum_append, List.sum_append] at hc
          rw [hc]
          simpa using hsum
        set rh := (buildRow [a] rest0 w).1.sum / w with hrh_def
        have hpdiv : pdiv (buildRow [a] rest0 w).1.sum w = some rh := by
          simp [pdiv, hw0, hrh_def]
        have hrh_pos : 0 < rh := div_pos htot hw
        obtain ⟨rowRects, hlay, hmapRow, hpartRow⟩ :=
          layRowW_spec (buildRow [a] rest0 w).1 x y rh hrh_pos hmemrow
        have hcw : (buildRow [a] rest0 w).1.sum / rh = w :=
          div_self_div _ _ (ne_of_gt htot) hw0
        rw [hcw] at hpartRow
        have hmul : w * rh = (buildRow [a] rest0 w).1.sum := by
          rw [hrh_def]
          field_simp
        have hkey : w * (h - rh) = (buildRow [a] rest0 w).2.sum := by
          have hr : w * (h - rh) = w * h - w * rh := by ring
          rw [hr, hmul]
          linarith [hsumsplit]
        have hrecut : ∃ tailRects,
            squarifyGo fuel (buildRow [a] rest0 w).2 x (y + rh) w (h - rh) = some tailRects ∧
            tailRects.map Rect.area = (buildRow [a] rest0 w).2 ∧
            IsPartitionOf tailRects ⟨x, y + rh, w, h - rh⟩ := by
          cases hre : (buildRow [a] rest0 w).2 with
          | nil =>
            refine ⟨[], squarifyGo_nil fuel x (y + rh) w (h - rh), rfl, ?_⟩
            have hzero : h - rh = 0 := by
              have h0 : w * (h - rh) = 0 := by
                rw [hkey, hre]
                simp
              rcases mul_eq_zero.mp h0 with h' | h'
              · exact absurd h' hw0
              · exact h'
            exact partition_nil (Or.inr hzero)
          | cons b brest =>
            rw [← hre]
            have hlen2 : (buildRow [a] rest0 w).2.length ≤ fuel :=
              le_trans (buildRow_snd_length rest0 [a] w) hlen
            have hrest_ne : (buildRow [a] rest0 w).2 ≠ [] := by
              rw [hre]
              exact List.cons_ne_nil b brest
            have hrest_pos : 0 < (buildRow [a] rest0 w).2.sum :=
              List.sum_pos _ hmemrest hrest_ne
            have hh' : 0 < h - rh := by
              by_contra hle
              push_neg at hle
              have h2 : w * (h - rh) ≤ w * 0 := mul_le_mul_of_nonneg_left (by linarith) hw.le
              rw [mul_zero, hkey] at h2
              exact absurd h2 (not_le.mpr hrest_pos)
            exact ih (buildRow [a] rest0 w).2 x (y + rh) w (h - rh) hlen2 hmemrest hw hh'
              hkey.symm
        obtain ⟨tailRects, hrec, hmapTail, hpartTail⟩ := hrecut
        refine ⟨rowRects ++ tailRects, ?_, ?_, ?_⟩
        · simp only [squarifyGo, if_pos hbr, hpdiv, Option.some_bind, hlay, hrec]
        · rw [List.map_append, hmapRow, hmapTail, happ]
          simp
        · have hth : rh ≤ h := by
            by_contra hlt
            push_neg at hlt
            have h2 : w * (h - rh) < w * 0 := by
              apply mul_lt_mul_of_pos_left (by linarith) hw
            rw [mul_zero, hkey] at h2
            exact absurd h2
              (not_lt.mpr (List.sum_nonneg fun b hb => (hmemrest b hb).le))
          exact partition_vsplit hpartRow hpartTail hrh_pos.le hth
      · push_neg at hbr
        have happ := buildRow_append rest0 [a] h
        obtain ⟨trow, htrow⟩ := buildRow_fst_expand rest0 [a] h
        have hmemrow : ∀ b ∈ (buildRow [a] rest0 h).1, 0 < b := by
          intro b hb
          have hm : b ∈ (buildRow [a] rest0 h).1 ++ (buildRow [a] rest0 h).2 :=
            List.mem_append_left _ hb
          rw [happ] at hm
          exact hpos b hm
        have hmemrest : ∀ b ∈ (buildRow [a] rest0 h).2, 0 < b := by
          intro b hb
          have hm : b ∈ (buildRow [a] rest0 h).1 ++ (buildRow [a] rest0 h).2 :=
            List.mem_append_right _ hb
          rw [happ] at hm
          exact hpos b hm
        have hrow_ne : (buildRow [a] rest0 h).1 ≠ [] := by
          rw [htrow]
          exact List.cons_ne_nil a trow
        have htot : 0 < (buildRow [a] rest0 h).1.sum := List.sum_pos _ hmemrow hrow_ne
        have hh0 : h ≠ 0 := ne_of_gt hh
        have hsumsplit :
            (buildRow [a] rest0 h).1.sum + (buildRow [a] rest0 h).2.sum = w * h := by
          have hc := congrArg List.sum happ
          rw [List.sum_append, List.sum_append] at hc
          rw [hc]
          simpa using hsum
        set cw := (buildRow [a] rest0 h).1.sum / h with hcw_def
        have hpdiv : pdiv (buildRow [a] rest0 h).1.sum h = some cw := by
          simp [pdiv, hh0, hcw_def]
        have hcw_pos : 0 < cw := div_pos htot hh
        obtain ⟨rowRects, hlay, hmapRow, hpartRow⟩ :=
          layRowH_spec (buildRow [a] rest0 h).1 x y cw hcw_pos hmemrow
        have hch : (buildRow [a] rest0 h).1.sum / cw = h :=
          div_self_div _ _ (ne_of_gt htot) hh0
        rw [hch] at hpartRow
        have hmul : h * cw = (buildRow [a] rest0 h).1.sum := by
          rw [hcw_def]
          field_simp
        have hkey : (w - cw) * h = (buildRow [a] rest0 h).2.sum := by
          have hr : (w - cw) * h = w * h - h * cw := by ring
          rw [hr, hmul]
          linarith [hsumsplit]
        have hrecut : ∃ tailRects,
            squarifyGo fuel (buildRow [a] rest0 h).2 (x + cw) y (w - cw) h = some tailRects ∧
            tailRects.map Rect.area = (buildRow [a] rest0 h).2 ∧
            IsPartitionOf tailRects ⟨x + cw, y, w - cw, h⟩ := by
          cases hre : (buildRow [a] rest0 h).2 with
          | nil =>
            refine ⟨[], squarifyGo_nil fuel (x + cw) y (w - cw) h, rfl, ?_⟩
            have hzero : w - cw = 0 := by
              have h0 : (w - cw) * h = 0 := by
                rw [hkey, hre]
                simp
              rcases mul_eq_zero.mp h0 with h' | h'
              · exact h'
              · exact absurd h' hh0
            exact partition_nil (Or.inl hzero)
          | cons b brest =>
            rw [← hre]
            have hlen2 : (buildRow [a] rest0 h).2.length ≤ fuel :=
              le_trans (buildRow_snd_length rest0 [a] h) hlen
            have hrest_ne : (buildRow [a] rest0 h).2 ≠ [] := by
              rw [hre]
              exact List.cons_ne_nil b brest
            have hrest_pos : 0 < (buildRow [a] rest0 h).2.sum :=
              List.sum_pos _ hmemrest hrest_ne
            have hw' : 0 < w - cw := by
              by_contra hle
              push_neg at hle
              have h2 : (w - cw) * h ≤ 0 * h := mul_le_mul_of_nonneg_right (by linarith) hh.le
              rw [zero_mul, hkey] at h2
              exact absurd h2 (not_le.mpr hrest_pos)
            exact ih (buildRow [a] rest0 h).2 (x + cw) y (w - cw) h hlen2 hmemrest hw' hh
              hkey.symm
        obtain ⟨tailRects, hrec, hmapTail, hpartTail⟩ := hrecut
        refine ⟨rowRects ++ tailRects, ?_, ?_, ?_⟩
        · simp only [squarifyGo, if_neg (not_le.mpr hbr), hpdiv, Option.some_bind, hlay, hrec]
        · rw [List.map_append, hmapRow, hmapTail, happ]
          simp
        · have htw : cw ≤ w := by
            by_contra hlt
            push_neg at hlt
            have h2 : (w - cw) * h < 0 * h := by
              apply mul_lt_mul_of_pos_right (by linarith) hh
            rw [zero_mul, hkey] at h2
            exact absurd h2
              (not_lt.mpr (List.sum_nonneg fun b hb => (hmemrest b hb).le))
          exact partition_hsplit hpartRow hpartTail hcw_pos.le htw

/-- C3 (amended): for every non-empty list of positive areas and every
rectangle with positive width and height whose area equals the areas'
total, squarify succeeds with exactly one rectangle per input area in the
same order, under exact arithmetic each output rectangle's area equals its
input area (rects.map area = areas), the rectangles tile the target
rectangle with no gaps or overlaps, and their total area equals the
rectangle's area; in particular squarify [100, 100] on the 20×10 rectangle
at the origin returns the two width-tiled squares (0,0,10,10) and
(10,0,10,10). -/
theorem squarify_contract :
    (∀ (areas : List ℚ) (x y w h : ℚ), areas ≠ [] → (∀ a ∈ areas, 0 < a) →
       0 < w → 0 < h → areas.sum = w * h →
       ∃ rects, squarify areas x y w h = some rects ∧
         rects.length = areas.length ∧
         rects.map Rect.area = areas ∧
         (rects.map Rect.area).sum = Rect.area ⟨x, y, w, h⟩ ∧
         IsPartitionOf rects ⟨x, y, w, h⟩) ∧
    squarify [100, 100] 0 0 20 10 = some [⟨0, 0, 10, 10⟩, ⟨10, 0, 10, 10⟩] := by
  constructor
  · intro areas x y w h _ hpos hw hh hsum
    obtain ⟨rects, hgo, hmap, hpart⟩ :=
      squarifyGo_spec areas.length areas x y w h le_rfl hpos hw hh hsum
    refine ⟨rects, hgo, ?_, hmap, ?_, hpart⟩
    · have hc := congrArg List.length hmap
      simpa using hc
    · rw [hmap, hsum]
      rfl
  · norm_num [squarify, squarifyGo, buildRow, worst_ratio_fn, layRowW, pdiv]

/-- C3 (counterexample): for positive areas whose total differs from the
rectangle's area the claim as stated fails: squarify [1] on the 2×1
rectangle at the origin returns the single rectangle (0, 0, 2, 1/2) of
total area 1 rather than the rectangle's area 2, and the output does not
tile the target (the point (0, 1/2) is covered by no output rectangle). -/
theorem squarify_total_area_counterexample :
    squarify [1] 0 0 2 1 = some [⟨0, 0, 2, 1/2⟩] ∧
    (([⟨0, 0, 2, 1/2⟩] : List Rect).map Rect.area).sum ≠ Rect.area ⟨0, 0, 2, 1⟩ ∧
    ¬ IsPartitionOf [⟨0, 0, 2, 1/2⟩] ⟨0, 0, 2, 1⟩ := by
  refine ⟨by norm_num [squarify, squarifyGo, buildRow, worst_ratio_fn, layRowW, pdiv],
    by norm_num [Rect.area], ?_⟩
  rintro ⟨hcov, -⟩
  have hmem : (⟨0, 0, 2, 1⟩ : Rect).Mem (0, 1/2) := by
    unfold Rect.Mem
    norm_num
  obtain ⟨r, hr, hm⟩ := (hcov (0, 1/2)).mp hmem
  rw [List.mem_singleton] at hr
  subst hr
  obtain ⟨-, -, -, h4⟩ := hm
  norm_num at h4

theorem squarify_contract_witness :
    ∃ rects, squarify [100, 100] 0 0 20 10 = some rects ∧
      rects.length = ([100, 100] : List ℚ).length ∧
      rects.map Rect.area = [100, 100] ∧
      (rects.map Rect.area).sum = Rect.area ⟨0, 0, 20, 10⟩ ∧
      IsPartitionOf rects ⟨0, 0, 20, 10⟩ :=
  squarify_contract.1 [100, 100] 0 0 20 10 (by simp)
    (by intro a ha
        simp only [List.mem_cons, List.not_mem_nil, or_false] at ha
        rcases ha with rfl | rfl <;> norm_num)
    (by norm_num) (by norm_num) (by norm_num)

theorem insertDesc_replicate (u : NodeT) (k : Nat) :
    insertDesc u (List.replicate k u) = List.replicate (k + 1) u := by
  cases k with
  | zero => rfl
  | succ k =>
    simp [List.replicate_succ, insertDesc]

theorem sortChildren_replicate (u : NodeT) : ∀ k,
    sortChildren (List.replicate k u) = List.replicate k u := by
  intro k
  induction k with
  | zero => rfl
  | succ k ih =>
    rw [List.replicate_succ]
    show insertDesc u (sortChildren (List.replicate k u)) = _
    rw [ih, insertDesc_replicate]
    rw [List.replicate_succ]

theorem sumSizes_replicate (u : NodeT) (n : Nat) :
    sumSizes (List.replicate n u) = n * u.size := by
  simp [sumSizes, List.map_replicate, List.sum_replicate, smul_eq_mul]

/-- C4 (code bug evaluation): for a directory with 2001 children of size 1
laid out in a 100×100 child area, the code renders the 2000 visible
children with squarify over the FULL child area (the computed visRect is
never used) and then paints the "others" block — of aggregate size 1 —
over the lower fraction of that same area, so the others rectangle has
positive area and overlaps a visible child's rectangle, instead of the two
partitions being disjoint. -/
theorem childLayout_others_overlaps_visible :
    ∃ placed oRect,
      childLayout (List.replicate 2001 (.mk "/d/f" "f" false 1 [])) 0 0 100 100 =
        some (placed, some (oRect, 1)) ∧
      placed.length = 2000 ∧
      0 < oRect.w * oRect.h ∧
      ∃ pr ∈ placed, ∃ p : ℚ × ℚ, (pr.2).Mem p ∧ oRect.Mem p := by
  obtain ⟨rects, hsq, hmaprects, hpart⟩ :=
    squarifyGo_spec 2000 (List.replicate 2000 (5:ℚ)) 0 0 100 100
      (by rw [List.length_replicate])
      (fun a ha => by rw [List.eq_of_mem_replicate ha]; norm_num)
      (by norm_num) (by norm_num)
      (by rw [List.sum_replicate]; norm_num)
  have hsq' : squarify (List.replicate 2000 (5:ℚ)) 0 0 100 100 = some rects := by
    rw [squarify, List.length_replicate]
    exact hsq
  have hlenrects : rects.length = 2000 := by
    have hc := congrArg List.length hmaprects
    rw [List.length_map, List.length_replicate] at hc
    exact hc
  refine ⟨(List.replicate 2000 (NodeT.mk "/d/f" "f" false 1 [])).zip rects,
    ⟨0, 0 + 100 * (((2000:ℕ) : ℚ) / ((2001:ℕ) : ℚ)), 100,
      100 * (1 - ((2000:ℕ) : ℚ) / ((2001:ℕ) : ℚ))⟩, ?_, ?_, ?_, ?_⟩
  · rw [childLayout, sortChildren_replicate]
    dsimp only
    rw [List.length_replicate]
    have h2001 : (2000:ℕ) < 2001 := by norm_num
    rw [if_pos h2001, if_pos h2001]
    rw [List.take_replicate, List.drop_replicate]
    rw [show (min 2000 2001 : ℕ) = 2000 from rfl, show (2001 - 2000 : ℕ) = 1 from rfl]
    rw [sumSizes_replicate, sumSizes_replicate, sumSizes_replicate]
    rw [show (2001 * NodeT.size (NodeT.mk "/d/f" "f" false 1 []) : ℕ) = 2001 from rfl,
      show (2000 * NodeT.size (NodeT.mk "/d/f" "f" false 1 []) : ℕ) = 2000 from rfl,
      show (1 * NodeT.size (NodeT.mk "/d/f" "f" false 1 []) : ℕ) = 1 from rfl]
    rw [if_pos (show (0:ℕ) < 2001 by norm_num)]
    rw [if_neg (show ¬((2000:ℕ) ≤ 0) by norm_num)]
    rw [List.map_replicate]
    rw [show ((if 0 < (NodeT.mk "/d/f" "f" false 1 []).size
          then ((NodeT.mk "/d/f" "f" false 1 []).size : ℚ) else EPSILON) /
          ((2000:ℕ) : ℚ) * ((100:ℚ) * 100)) = (5:ℚ) from by
      norm_num [NodeT.size, EPSILON]]
    rw [hsq']
    dsimp only
    rw [if_pos (show ((0:ℕ) < 1 ∧ (5:ℚ) < 100 ∧ (5:ℚ) < 100) by norm_num)]
    rw [if_pos (show (100:ℚ) ≤ 100 from le_refl 100)]
  · rw [List.length_zip, List.length_replicate, hlenrects]
    exact min_self 2000
  · norm_num
  · have hmemBig : (⟨0, 0, 100, 100⟩ : Rect).Mem (0, 100 * ((2000:ℚ)/2001)) := by
      unfold Rect.Mem
      norm_num
    obtain ⟨r, hr, hm⟩ := (hpart.1 (0, 100 * ((2000:ℚ)/2001))).mp hmemBig
    obtain ⟨i, hi, hgi⟩ := List.mem_iff_getElem.mp hr
    have hi2000 : i < 2000 := by
      rw [hlenrects] at hi
      exact hi
    have hizip : i < ((List.replicate 2000 (NodeT.mk "/d/f" "f" false 1 [])).zip rects).length := by
      rw [List.length_zip, List.length_replicate, hlenrects]
      omega
    refine ⟨((List.replicate 2000 (NodeT.mk "/d/f" "f" false 1 [])).zip rects)[i], ?_, ?_⟩
    · exact List.getElem_mem hizip
    · refine ⟨(0, 100 * ((2000:ℚ)/2001)), ?_, ?_⟩
      · rw [List.getElem_zip]
        simpa [hgi] using hm
      · unfold Rect.Mem
        norm_num
